import Mathlib

/-!
Verification of an in-memory binary search tree (BST) container:
nodes own optional left/right children, the tree owns an optional root,
and the operations are insert, search, delete, find_min/find_max, the
three depth-first traversals, count_nodes, height and a shallow balance
check.  The element type is instantiated at `Int` (the source is generic
over any totally ordered, cloneable type and the driver uses integers).
-/

/-- Error taxonomy of the container: two value-level failures. -/
inductive BSTError where
  | DuplicateValue
  | ValueNotFound
deriving DecidableEq, Repr

/-- A node holds a value and optional exclusively-owned left/right children. -/
inductive Node where
  | mk (value : Int) (left : Option Node) (right : Option Node)
deriving Repr

/-- Create a new leaf node. -/
def Node.new (value : Int) : Node :=
  .mk value none none

/-- Insert a value below a node: descend by comparison (the three-way
`cmp` is rendered as the equivalent two comparisons), attach a leaf at
the first absent slot, fail with `DuplicateValue` on an equal value. -/
def Node.insert : Node → Int → Except BSTError Node
  | .mk value left right, v =>
    if v < value then
      match left with
      | some l => (Node.insert l v).map fun l2 => .mk value (some l2) right
      | none => .ok (.mk value (some (Node.new v)) right)
    else if value < v then
      match right with
      | some r => (Node.insert r v).map fun r2 => .mk value left (some r2)
      | none => .ok (.mk value left (some (Node.new v)))
    else .error .DuplicateValue

/-- Search for a value below a node: descend by comparison, true on an
equality hit, false when the needed child is absent. -/
def Node.search : Node → Int → Bool
  | .mk value left right, v =>
    if v < value then
      match left with
      | some l => Node.search l v
      | none => false
    else if value < v then
      match right with
      | some r => Node.search r v
      | none => false
    else true

/-- Follow left children until absent; that node's value. -/
def Node.find_min : Node → Int
  | .mk value left _ =>
    match left with
    | some l => Node.find_min l
    | none => value

/-- Follow right children until absent; that node's value. -/
def Node.find_max : Node → Int
  | .mk value _ right =>
    match right with
    | some r => Node.find_max r
    | none => value

/-- Delete a value below a node, returning the replacement subtree
(`none` when the subtree becomes empty).  Descends by comparison and
fails with `ValueNotFound` when the expected child is absent; at the
matching node it promotes the single child, or (two children) replaces
the value with the minimum of the right subtree and deletes that
minimum from the right subtree. -/
def Node.delete : Node → Int → Except BSTError (Option Node)
  | .mk value left right, v =>
    if v < value then
      match left with
      | some l => (Node.delete l v).map fun l2 => some (.mk value l2 right)
      | none => .error .ValueNotFound
    else if value < v then
      match right with
      | some r => (Node.delete r v).map fun r2 => some (.mk value left r2)
      | none => .error .ValueNotFound
    else
      match left with
      | none => .ok right
      | some l =>
        match right with
        | none => .ok (some l)
        | some r =>
          (Node.delete r (Node.find_min r)).map fun r2 =>
            some (.mk (Node.find_min r) (some l) r2)

/-- In-order traversal (left, root, right). -/
def Node.in_order_traversal : Node → List Int
  | .mk value left right =>
    (match left with
     | some l => Node.in_order_traversal l
     | none => []) ++
    value ::
    (match right with
     | some r => Node.in_order_traversal r
     | none => [])

/-- Pre-order traversal (root, left, right). -/
def Node.pre_order_traversal : Node → List Int
  | .mk value left right =>
    value ::
    ((match left with
      | some l => Node.pre_order_traversal l
      | none => []) ++
     (match right with
      | some r => Node.pre_order_traversal r
      | none => []))

/-- Post-order traversal (left, right, root). -/
def Node.post_order_traversal : Node → List Int
  | .mk value left right =>
    (match left with
     | some l => Node.post_order_traversal l
     | none => []) ++
    (match right with
     | some r => Node.post_order_traversal r
     | none => []) ++
    [value]

/-- Number of nodes in the subtree. -/
def Node.count_nodes : Node → Nat
  | .mk _ left right =>
    1 +
    (match left with
     | some l => Node.count_nodes l
     | none => 0) +
    (match right with
     | some r => Node.count_nodes r
     | none => 0)

/-- Height of the subtree: 1 + max of child heights, absent child is 0. -/
def Node.height : Node → Nat
  | .mk _ left right =>
    1 + max
      (match left with
       | some l => Node.height l
       | none => 0)
      (match right with
       | some r => Node.height r
       | none => 0)

/-- Shallow balance check: the heights of the immediate children differ
by at most 1 (computed as a signed difference, as in the source). -/
def Node.is_balanced (n : Node) : Bool :=
  match n with
  | .mk _ left right =>
    decide ((((match left with
               | some l => Node.height l
               | none => 0) : Int) -
             ((match right with
               | some r => Node.height r
               | none => 0) : Int)).natAbs ≤ 1)

/-- The tree holds an optional exclusively-owned root node. -/
structure BinarySearchTree where
  root : Option Node
deriving Repr

/-- Create a new empty tree. -/
def BinarySearchTree.new : BinarySearchTree :=
  { root := none }

/-- Insert a value into the tree; inserting into an empty tree sets the
root directly. -/
def BinarySearchTree.insert (t : BinarySearchTree) (v : Int) :
    Except BSTError BinarySearchTree :=
  match t.root with
  | some root => (Node.insert root v).map fun r => { root := some r }
  | none => .ok { root := some (Node.new v) }

/-- Search for a value in the tree; false on the empty tree. -/
def BinarySearchTree.search (t : BinarySearchTree) (v : Int) : Bool :=
  match t.root with
  | some root => Node.search root v
  | none => false

/-- Delete a value from the tree; the empty tree fails with
`ValueNotFound`. -/
def BinarySearchTree.delete (t : BinarySearchTree) (v : Int) :
    Except BSTError BinarySearchTree :=
  match t.root with
  | some root => (Node.delete root v).map fun r => { root := r }
  | none => .error .ValueNotFound

/-- Minimum value of the tree, `none` iff empty. -/
def BinarySearchTree.find_min (t : BinarySearchTree) : Option Int :=
  t.root.map Node.find_min

/-- Maximum value of the tree, `none` iff empty. -/
def BinarySearchTree.find_max (t : BinarySearchTree) : Option Int :=
  t.root.map Node.find_max

/-- In-order traversal of the tree; empty list on the empty tree. -/
def BinarySearchTree.in_order_traversal (t : BinarySearchTree) : List Int :=
  match t.root with
  | some root => Node.in_order_traversal root
  | none => []

/-- Pre-order traversal of the tree. -/
def BinarySearchTree.pre_order_traversal (t : BinarySearchTree) : List Int :=
  match t.root with
  | some root => Node.pre_order_traversal root
  | none => []

/-- Post-order traversal of the tree. -/
def BinarySearchTree.post_order_traversal (t : BinarySearchTree) : List Int :=
  match t.root with
  | some root => Node.post_order_traversal root
  | none => []

/-- Number of nodes in the tree. -/
def BinarySearchTree.count_nodes (t : BinarySearchTree) : Nat :=
  match t.root with
  | some root => Node.count_nodes root
  | none => 0

/-- Shallow balance check of the tree; true on the empty tree. -/
def BinarySearchTree.is_balanced (t : BinarySearchTree) : Bool :=
  match t.root with
  | some root => Node.is_balanced root
  | none => true

/-- Height of the tree; 0 on the empty tree. -/
def BinarySearchTree.height (t : BinarySearchTree) : Nat :=
  match t.root with
  | some root => Node.height root
  | none => 0

/-! ## Specification-side notions

The BST ordering invariant, formulated from the specification: for every
node, every value in the left subtree is strictly below the node's value
and every value in the right subtree strictly above, recursively. -/

/-- In-order traversal of an optional subtree. -/
def inOrderOpt : Option Node → List Int
  | some n => Node.in_order_traversal n
  | none => []

/-- BST ordering invariant of a node, from the specification. -/
def Node.isBST : Node → Bool
  | .mk value left right =>
    ((inOrderOpt left).all fun x => decide (x < value)) &&
    ((inOrderOpt right).all fun x => decide (value < x)) &&
    (match left with
     | some l => Node.isBST l
     | none => true) &&
    (match right with
     | some r => Node.isBST r
     | none => true)

/-- BST ordering invariant of an optional subtree. -/
def isBSTOpt : Option Node → Bool
  | some n => Node.isBST n
  | none => true

/-- BST ordering invariant at the tree level. -/
def BinarySearchTree.isBST (t : BinarySearchTree) : Bool :=
  isBSTOpt t.root

/-- A single mutating operation on the tree. -/
inductive Op where
  | ins (v : Int)
  | del (v : Int)

/-- Apply one operation; a failed operation leaves the tree unchanged
(as in the source, where the error return performs no attachment or
rebinding). -/
def BinarySearchTree.applyOp (t : BinarySearchTree) : Op → BinarySearchTree
  | .ins v =>
    match t.insert v with
    | .ok t2 => t2
    | .error _ => t
  | .del v =>
    match t.delete v with
    | .ok t2 => t2
    | .error _ => t

/-- Apply a sequence of operations to the empty tree. -/
def applyOps (ops : List Op) : BinarySearchTree :=
  ops.foldl BinarySearchTree.applyOp .new

/-- Model of one operation on the abstract set of stored values: a
failed insert targets a value already present (so the set is unchanged)
and a failed delete targets an absent value (likewise). -/
def Op.model (s : Finset Int) : Op → Finset Int
  | .ins v => insert v s
  | .del v => s.erase v

/-- Model of an operation sequence on the abstract set of stored values. -/
def modelOps (ops : List Op) : Finset Int :=
  ops.foldl Op.model ∅

/-- Height of an optional subtree (absent child contributes 0). -/
def heightOpt : Option Node → Nat
  | some n => Node.height n
  | none => 0

/-- The tree built by the driver scenario: 10, 5, 15, 3, 7, 12, 18
inserted in that order. -/
def scenario_tree : BinarySearchTree :=
  { root := some (.mk 10
      (some (.mk 5 (some (.mk 3 none none)) (some (.mk 7 none none))))
      (some (.mk 15 (some (.mk 12 none none)) (some (.mk 18 none none))))) }

/-- The scenario tree after deleting 15 (a two-child node: its value is
replaced by 18, the minimum of its right subtree, and 18 is deleted from
that subtree). -/
def scenario_tree_after : BinarySearchTree :=
  { root := some (.mk 10
      (some (.mk 5 (some (.mk 3 none none)) (some (.mk 7 none none))))
      (some (.mk 18 (some (.mk 12 none none)) none))) }

/-- The driver scenario insert chain, each step propagating failure. -/
def scenario_chain : Except BSTError BinarySearchTree :=
  (BinarySearchTree.new.insert 10).bind fun t1 =>
    (t1.insert 5).bind fun t2 =>
      (t2.insert 15).bind fun t3 =>
        (t3.insert 3).bind fun t4 =>
          (t4.insert 7).bind fun t5 =>
            (t5.insert 12).bind fun t6 => t6.insert 18

/-- A subtree that is internally skewed by more than one level. -/
def skewed_left : Node :=
  .mk 3 (some (.mk 2 (some (.mk 1 none none)) none)) none

/-- A right subtree of the same height as `skewed_left`. -/
def skewed_right : Node :=
  .mk 7 (some (.mk 6 (some (.mk 5 none none)) none)) none

/-- A tree whose root passes the shallow balance check (equal child
heights) although its left subtree is internally skewed by 2. -/
def skewed_tree : BinarySearchTree :=
  { root := some (.mk 4 (some skewed_left) (some skewed_right)) }

/-! ## Basic lemmas -/

@[simp] theorem inOrderOpt_some (n : Node) :
    inOrderOpt (some n) = n.in_order_traversal := rfl

@[simp] theorem inOrderOpt_none : inOrderOpt none = [] := rfl

@[simp] theorem isBSTOpt_some (n : Node) : isBSTOpt (some n) = n.isBST := rfl

@[simp] theorem isBSTOpt_none : isBSTOpt none = true := rfl

/-- Unfolding of insert: descend left. -/
theorem Node.insert_lt_some {value v : Int} (l : Node) (right : Option Node)
    (h : v < value) :
    Node.insert (.mk value (some l) right) v =
      (Node.insert l v).map fun l2 => .mk value (some l2) right := by
  rw [Node.insert.eq_def]
  simp only [if_pos h]

/-- Unfolding of insert: attach a leaf on the left. -/
theorem Node.insert_lt_none {value v : Int} (right : Option Node) (h : v < value) :
    Node.insert (.mk value none right) v =
      .ok (.mk value (some (Node.new v)) right) := by
  rw [Node.insert.eq_def]
  simp only [if_pos h]

/-- Unfolding of insert: descend right. -/
theorem Node.insert_gt_some {value v : Int} (left : Option Node) (r : Node)
    (h : value < v) :
    Node.insert (.mk value left (some r)) v =
      (Node.insert r v).map fun r2 => .mk value left (some r2) := by
  rw [Node.insert.eq_def]
  simp only [if_neg (by omega : ¬ v < value), if_pos h]

/-- Unfolding of insert: attach a leaf on the right. -/
theorem Node.insert_gt_none {value v : Int} (left : Option Node) (h : value < v) :
    Node.insert (.mk value left none) v =
      .ok (.mk value left (some (Node.new v))) := by
  rw [Node.insert.eq_def]
  simp only [if_neg (by omega : ¬ v < value), if_pos h]

/-- Unfolding of insert: duplicate value. -/
theorem Node.insert_self (value : Int) (left right : Option Node) :
    Node.insert (.mk value left right) value = .error .DuplicateValue := by
  rw [Node.insert.eq_def]
  simp

/-- Unfolding of search: descend left. -/
theorem Node.search_lt_some {value v : Int} (l : Node) (right : Option Node)
    (h : v < value) :
    Node.search (.mk value (some l) right) v = Node.search l v := by
  rw [Node.search.eq_def]
  simp only [if_pos h]

/-- Unfolding of search: absent left child. -/
theorem Node.search_lt_none {value v : Int} (right : Option Node) (h : v < value) :
    Node.search (.mk value none right) v = false := by
  rw [Node.search.eq_def]
  simp only [if_pos h]

/-- Unfolding of search: descend right. -/
theorem Node.search_gt_some {value v : Int} (left : Option Node) (r : Node)
    (h : value < v) :
    Node.search (.mk value left (some r)) v = Node.search r v := by
  rw [Node.search.eq_def]
  simp only [if_neg (by omega : ¬ v < value), if_pos h]

/-- Unfolding of search: absent right child. -/
theorem Node.search_gt_none {value v : Int} (left : Option Node) (h : value < v) :
    Node.search (.mk value left none) v = false := by
  rw [Node.search.eq_def]
  simp only [if_neg (by omega : ¬ v < value), if_pos h]

/-- Unfolding of search: equality hit. -/
theorem Node.search_self (value : Int) (left right : Option Node) :
    Node.search (.mk value left right) value = true := by
  rw [Node.search.eq_def]
  simp

/-- Unfolding of delete: descend left. -/
theorem Node.delete_lt_some {value v : Int} (l : Node) (right : Option Node)
    (h : v < value) :
    Node.delete (.mk value (some l) right) v =
      (Node.delete l v).map fun l2 => some (.mk value l2 right) := by
  rw [Node.delete.eq_def]
  simp only [if_pos h]

/-- Unfolding of delete: expected left child absent. -/
theorem Node.delete_lt_none {value v : Int} (right : Option Node) (h : v < value) :
    Node.delete (.mk value none right) v = .error .ValueNotFound := by
  rw [Node.delete.eq_def]
  simp only [if_pos h]

/-- Unfolding of delete: descend right. -/
theorem Node.delete_gt_some {value v : Int} (left : Option Node) (r : Node)
    (h : value < v) :
    Node.delete (.mk value left (some r)) v =
      (Node.delete r v).map fun r2 => some (.mk value left r2) := by
  rw [Node.delete.eq_def]
  simp only [if_neg (by omega : ¬ v < value), if_pos h]

/-- Unfolding of delete: expected right child absent. -/
theorem Node.delete_gt_none {value v : Int} (left : Option Node) (h : value < v) :
    Node.delete (.mk value left none) v = .error .ValueNotFound := by
  rw [Node.delete.eq_def]
  simp only [if_neg (by omega : ¬ v < value), if_pos h]

/-- Unfolding of delete at the matching node: no left child promotes the
right child. -/
theorem Node.delete_self_noleft (value : Int) (right : Option Node) :
    Node.delete (.mk value none right) value = .ok right := by
  rw [Node.delete.eq_def]
  simp

/-- Unfolding of delete at the matching node: no right child promotes the
left child. -/
theorem Node.delete_self_noright (value : Int) (l : Node) :
    Node.delete (.mk value (some l) none) value = .ok (some l) := by
  rw [Node.delete.eq_def]
  simp

/-- Unfolding of delete at the matching node with two children: replace
the value by the minimum of the right subtree and delete it there. -/
theorem Node.delete_self_two (value : Int) (l r : Node) :
    Node.delete (.mk value (some l) (some r)) value =
      (Node.delete r (Node.find_min r)).map fun r2 =>
        some (.mk (Node.find_min r) (some l) r2) := by
  rw [Node.delete.eq_def]
  simp

/-- The in-order traversal of a node, in terms of optional subtrees. -/
theorem Node.in_order_eq (v : Int) (left right : Option Node) :
    Node.in_order_traversal (.mk v left right) =
      inOrderOpt left ++ v :: inOrderOpt right := by
  cases left <;> cases right <;> rfl

/-- The invariant of a node, in terms of optional subtrees. -/
theorem Node.isBST_eq (v : Int) (left right : Option Node) :
    Node.isBST (.mk v left right) =
      (((inOrderOpt left).all fun x => decide (x < v)) &&
       ((inOrderOpt right).all fun x => decide (v < x)) &&
       isBSTOpt left && isBSTOpt right) := by
  cases left <;> cases right <;> rfl

/-- The in-order traversal of a node is never empty. -/
theorem Node.in_order_ne_nil (n : Node) : n.in_order_traversal ≠ [] := by
  obtain ⟨v, left, right⟩ := n
  rw [Node.in_order_eq]
  simp

/-- Strict sortedness splits over an append. -/
theorem sorted_append_iff (l1 l2 : List Int) :
    List.Sorted (· < ·) (l1 ++ l2) ↔
      List.Sorted (· < ·) l1 ∧ List.Sorted (· < ·) l2 ∧
        ∀ x ∈ l1, ∀ y ∈ l2, x < y :=
  List.pairwise_append

/-- The invariant holds exactly when the in-order traversal is strictly
ascending. -/
theorem isBSTOpt_iff_sorted : ∀ o : Option Node,
    isBSTOpt o = true ↔ List.Sorted (· < ·) (inOrderOpt o)
  | none => by simp
  | some (.mk v left right) => by
    have ihl := isBSTOpt_iff_sorted left
    have ihr := isBSTOpt_iff_sorted right
    rw [isBSTOpt_some, Node.isBST_eq, inOrderOpt_some, Node.in_order_eq,
      sorted_append_iff, List.sorted_cons]
    simp only [Bool.and_eq_true, List.all_eq_true, decide_eq_true_eq, List.mem_cons]
    rw [ihl, ihr]
    constructor
    · rintro ⟨⟨⟨h1, h2⟩, h3⟩, h4⟩
      refine ⟨h3, ⟨h2, h4⟩, fun x hx y hy => ?_⟩
      rcases hy with rfl | hy
      · exact h1 x hx
      · exact lt_trans (h1 x hx) (h2 y hy)
    · rintro ⟨h3, ⟨h2, h4⟩, hc⟩
      exact ⟨⟨⟨fun x hx => hc x hx v (Or.inl rfl), h2⟩, h3⟩, h4⟩

/-- Node-level version of the sortedness characterisation. -/
theorem Node.isBST_iff_sorted (n : Node) :
    n.isBST = true ↔ List.Sorted (· < ·) n.in_order_traversal :=
  isBSTOpt_iff_sorted (some n)

/-- The number of nodes equals the length of the in-order traversal. -/
theorem Node.count_nodes_eq_length : ∀ n : Node,
    n.count_nodes = n.in_order_traversal.length
  | .mk v left right => by
    rw [Node.in_order_eq]
    cases left with
    | none =>
      cases right with
      | none => simp [Node.count_nodes]
      | some r =>
        have ihr := Node.count_nodes_eq_length r
        simp [Node.count_nodes, ihr]
        omega
    | some l =>
      have ihl := Node.count_nodes_eq_length l
      cases right with
      | none =>
        simp [Node.count_nodes, ihl]
        omega
      | some r =>
        have ihr := Node.count_nodes_eq_length r
        simp [Node.count_nodes, ihl, ihr]
        omega

/-- `find_min` is the head of the in-order traversal. -/
theorem Node.find_min_eq_head : ∀ n : Node,
    n.in_order_traversal.head? = some n.find_min
  | .mk v left right => by
    rw [Node.in_order_eq]
    cases left with
    | none => simp [Node.find_min]
    | some l =>
      have ih := Node.find_min_eq_head l
      have hne := Node.in_order_ne_nil l
      rw [inOrderOpt_some, List.head?_append_of_ne_nil _ hne]
      simpa [Node.find_min] using ih

/-- Unpack the invariant of a node into its four components. -/
theorem Node.isBST_parts {value : Int} {left right : Option Node}
    (h : Node.isBST (.mk value left right) = true) :
    (∀ x ∈ inOrderOpt left, x < value) ∧ (∀ x ∈ inOrderOpt right, value < x) ∧
      isBSTOpt left = true ∧ isBSTOpt right = true := by
  rw [Node.isBST_eq] at h
  simp only [Bool.and_eq_true, List.all_eq_true, decide_eq_true_eq] at h
  tauto

/-- Rebuild the invariant of a node from its four components. -/
theorem Node.isBST_build {value : Int} {left right : Option Node}
    (h1 : ∀ x ∈ inOrderOpt left, x < value)
    (h2 : ∀ x ∈ inOrderOpt right, value < x)
    (h3 : isBSTOpt left = true) (h4 : isBSTOpt right = true) :
    Node.isBST (.mk value left right) = true := by
  rw [Node.isBST_eq]
  simp only [Bool.and_eq_true, List.all_eq_true, decide_eq_true_eq]
  tauto

/-- `find_max` is the last element of the in-order traversal. -/
theorem Node.find_max_eq_getLast : ∀ n : Node,
    n.in_order_traversal.getLast? = some n.find_max
  | .mk v left right => by
    rw [Node.in_order_eq]
    cases right with
    | none => simp [Node.find_max]
    | some r =>
      have ih := Node.find_max_eq_getLast r
      obtain ⟨x, xs, hx⟩ := List.exists_cons_of_ne_nil (Node.in_order_ne_nil r)
      rw [hx] at ih
      rw [inOrderOpt_some, hx]
      simp [List.getLast?_append, ih, Node.find_max]

/-! ## Insert and search lemmas -/

/-- Insert fails (necessarily with `DuplicateValue`) exactly when the
search descent finds the value. -/
theorem Node.insert_error_iff : ∀ (n : Node) (v : Int),
    Node.insert n v = .error .DuplicateValue ↔ Node.search n v = true
  | .mk value left right, v => by
    rcases lt_trichotomy v value with hv | rfl | hv
    · cases left with
      | none => rw [Node.insert_lt_none right hv, Node.search_lt_none right hv]; simp
      | some l =>
        rw [Node.insert_lt_some l right hv, Node.search_lt_some l right hv,
          ← Node.insert_error_iff l v]
        cases hins : Node.insert l v with
        | ok l2 => simp [Except.map]
        | error e => simp [Except.map]
    · rw [Node.insert_self, Node.search_self]
      simp
    · cases right with
      | none => rw [Node.insert_gt_none left hv, Node.search_gt_none left hv]; simp
      | some r =>
        rw [Node.insert_gt_some left r hv, Node.search_gt_some left r hv,
          ← Node.insert_error_iff r v]
        cases hins : Node.insert r v with
        | ok r2 => simp [Except.map]
        | error e => simp [Except.map]

/-- Insert either succeeds or fails with `DuplicateValue`. -/
theorem Node.insert_ok_or_error : ∀ (n : Node) (v : Int),
    (∃ n2, Node.insert n v = .ok n2) ∨
      Node.insert n v = .error .DuplicateValue
  | .mk value left right, v => by
    rcases lt_trichotomy v value with hv | rfl | hv
    · cases left with
      | none => exact Or.inl ⟨_, Node.insert_lt_none right hv⟩
      | some l =>
        rw [Node.insert_lt_some l right hv]
        rcases Node.insert_ok_or_error l v with ⟨l2, h⟩ | h
        · exact Or.inl ⟨_, by rw [h]; rfl⟩
        · exact Or.inr (by rw [h]; rfl)
    · exact Or.inr (Node.insert_self _ left right)
    · cases right with
      | none => exact Or.inl ⟨_, Node.insert_gt_none left hv⟩
      | some r =>
        rw [Node.insert_gt_some left r hv]
        rcases Node.insert_ok_or_error r v with ⟨r2, h⟩ | h
        · exact Or.inl ⟨_, by rw [h]; rfl⟩
        · exact Or.inr (by rw [h]; rfl)

/-- A successful insert preserves the invariant and adds exactly the new
value to the stored set. -/
theorem Node.insert_ok_spec : ∀ (n : Node) (v : Int) (n2 : Node),
    Node.isBST n = true → Node.insert n v = .ok n2 →
    Node.isBST n2 = true ∧
      ∀ x, x ∈ n2.in_order_traversal ↔ x = v ∨ x ∈ n.in_order_traversal
  | .mk value left right, v, n2 => by
    intro hbst hok
    obtain ⟨hallL, hallR, hbL, hbR⟩ := Node.isBST_parts hbst
    rcases lt_trichotomy v value with hv | rfl | hv
    · cases left with
      | none =>
        rw [Node.insert_lt_none right hv] at hok
        simp only [Except.ok.injEq] at hok
        subst hok
        constructor
        · exact Node.isBST_build (by simp [Node.new, Node.in_order_eq, hv])
            hallR (by simp [Node.new, Node.isBST]) hbR
        · intro x
          rw [Node.in_order_eq, Node.in_order_eq]
          simp [Node.new, Node.in_order_eq]
      | some l =>
        rw [Node.insert_lt_some l right hv] at hok
        cases hins : Node.insert l v with
        | error e => rw [hins] at hok; exact absurd hok (by simp [Except.map])
        | ok l2 =>
          rw [hins] at hok
          simp only [Except.map, Except.ok.injEq] at hok
          subst hok
          obtain ⟨hb2, hmem2⟩ := Node.insert_ok_spec l v l2 (by simpa using hbL) hins
          constructor
          · refine Node.isBST_build ?_ hallR (by simpa using hb2) hbR
            intro x hx
            rcases (hmem2 x).mp hx with rfl | hx2
            · exact hv
            · exact hallL x hx2
          · intro x
            rw [Node.in_order_eq, Node.in_order_eq]
            simp only [inOrderOpt_some, List.mem_append, List.mem_cons, hmem2]
            tauto
    · rw [Node.insert_self] at hok
      exact absurd hok (by simp)
    · cases right with
      | none =>
        rw [Node.insert_gt_none left hv] at hok
        simp only [Except.ok.injEq] at hok
        subst hok
        constructor
        · exact Node.isBST_build hallL
            (by simp [Node.new, Node.in_order_eq, hv]) hbL
            (by simp [Node.new, Node.isBST])
        · intro x
          rw [Node.in_order_eq, Node.in_order_eq]
          simp [Node.new, Node.in_order_eq]
          tauto
      | some r =>
        rw [Node.insert_gt_some left r hv] at hok
        cases hins : Node.insert r v with
        | error e => rw [hins] at hok; exact absurd hok (by simp [Except.map])
        | ok r2 =>
          rw [hins] at hok
          simp only [Except.map, Except.ok.injEq] at hok
          subst hok
          obtain ⟨hb2, hmem2⟩ := Node.insert_ok_spec r v r2 (by simpa using hbR) hins
          constructor
          · refine Node.isBST_build hallL ?_ hbL (by simpa using hb2)
            intro x hx
            rcases (hmem2 x).mp hx with rfl | hx2
            · exact hv
            · exact hallR x hx2
          · intro x
            rw [Node.in_order_eq, Node.in_order_eq]
            simp only [inOrderOpt_some, List.mem_append, List.mem_cons, hmem2]
            tauto

/-- Under the invariant, search is exactly membership in the in-order
traversal. -/
theorem Node.search_iff_mem : ∀ (n : Node) (v : Int),
    Node.isBST n = true →
    (Node.search n v = true ↔ v ∈ n.in_order_traversal)
  | .mk value left right, v => by
    intro hbst
    obtain ⟨hallL, hallR, hbL, hbR⟩ := Node.isBST_parts hbst
    rw [Node.in_order_eq]
    rcases lt_trichotomy v value with hv | rfl | hv
    · have hnotR : v ∉ inOrderOpt right := fun hm => absurd (hallR v hm) (by omega)
      cases left with
      | none =>
        rw [Node.search_lt_none right hv]
        simp only [inOrderOpt_none, List.nil_append, List.mem_cons]
        constructor
        · intro h; exact absurd h (by simp)
        · rintro (rfl | hm)
          · omega
          · exact absurd hm hnotR
      | some l =>
        rw [Node.search_lt_some l right hv,
          Node.search_iff_mem l v (by simpa using hbL)]
        simp only [inOrderOpt_some, List.mem_append, List.mem_cons]
        constructor
        · exact fun h => Or.inl h
        · rintro (hm | rfl | hm)
          · exact hm
          · omega
          · exact absurd hm hnotR
    · rw [Node.search_self]
      simp
    · have hnotL : v ∉ inOrderOpt left := fun hm => absurd (hallL v hm) (by omega)
      cases right with
      | none =>
        rw [Node.search_gt_none left hv]
        simp only [inOrderOpt_none, List.mem_append, List.mem_cons]
        constructor
        · intro h; exact absurd h (by simp)
        · rintro (hm | rfl | hm)
          · exact absurd hm hnotL
          · omega
          · exact absurd hm (by simp)
      | some r =>
        rw [Node.search_gt_some left r hv,
          Node.search_iff_mem r v (by simpa using hbR)]
        simp only [inOrderOpt_some, List.mem_append, List.mem_cons]
        constructor
        · exact fun h => Or.inr (Or.inr h)
        · rintro (hm | rfl | hm)
          · exact absurd hm hnotL
          · omega
          · exact hm

/-! ## Delete lemmas -/

/-- Deleting an absent value fails with `ValueNotFound`, on any tree
(no invariant needed): the descent runs off the tree before any
equality hit. -/
theorem Node.delete_not_mem : ∀ (n : Node) (v : Int),
    v ∉ n.in_order_traversal → Node.delete n v = .error .ValueNotFound
  | .mk value left right, v => by
    intro hnm
    rw [Node.in_order_eq] at hnm
    simp only [List.mem_append, List.mem_cons, not_or] at hnm
    obtain ⟨hnL, hne, hnR⟩ := hnm
    rcases lt_trichotomy v value with hv | rfl | hv
    · cases left with
      | none => exact Node.delete_lt_none right hv
      | some l =>
        rw [Node.delete_lt_some l right hv,
          Node.delete_not_mem l v (by simpa using hnL)]
        rfl
    · exact absurd rfl hne
    · cases right with
      | none => exact Node.delete_gt_none left hv
      | some r =>
        rw [Node.delete_gt_some left r hv,
          Node.delete_not_mem r v (by simpa using hnR)]
        rfl

/-- Under the invariant, deleting a present value succeeds, removes
exactly that value from the in-order traversal, and preserves the
invariant. -/
theorem Node.delete_ok_spec : ∀ (n : Node) (v : Int),
    Node.isBST n = true → v ∈ n.in_order_traversal →
    ∃ res : Option Node,
      Node.delete n v = .ok res ∧
      inOrderOpt res = n.in_order_traversal.erase v ∧
      isBSTOpt res = true
  | .mk value left right, v => by
    intro hbst hmem
    obtain ⟨hallL, hallR, hbL, hbR⟩ := Node.isBST_parts hbst
    rw [Node.in_order_eq] at hmem
    simp only [List.mem_append, List.mem_cons] at hmem
    rcases lt_trichotomy v value with hv | rfl | hv
    · have hvL : v ∈ inOrderOpt left := by
        rcases hmem with h | rfl | h
        · exact h
        · omega
        · exact absurd (hallR v h) (by omega)
      cases left with
      | none => exact absurd hvL (by simp)
      | some l =>
        obtain ⟨res, hdel, hio, hb⟩ :=
          Node.delete_ok_spec l v (by simpa using hbL) (by simpa using hvL)
        refine ⟨some (.mk value res right), ?_, ?_, ?_⟩
        · rw [Node.delete_lt_some l right hv, hdel]
          rfl
        · rw [inOrderOpt_some, Node.in_order_eq, Node.in_order_eq,
            List.erase_append_left _ (by simpa using hvL), hio]
          rfl
        · refine Node.isBST_build ?_ hallR ?_ hbR
          · intro x hx
            rw [hio] at hx
            exact hallL x (List.erase_subset v _ hx)
          · simpa using hb
    · cases left with
      | none =>
        refine ⟨right, Node.delete_self_noleft v right, ?_, hbR⟩
        rw [Node.in_order_eq]
        simp
      | some l =>
        have hvnotL : v ∉ inOrderOpt (some l) := fun h =>
          absurd (hallL v h) (by omega)
        cases right with
        | none =>
          refine ⟨some l, Node.delete_self_noright v l, ?_, by simpa using hbL⟩
          rw [inOrderOpt_some, Node.in_order_eq,
            List.erase_append_right _ hvnotL]
          simp
        | some r =>
          have hbr : Node.isBST r = true := by simpa using hbR
          have hmhead := Node.find_min_eq_head r
          obtain ⟨m0, tail, htail⟩ :=
            List.exists_cons_of_ne_nil (Node.in_order_ne_nil r)
          have hm0 : m0 = Node.find_min r := by
            rw [htail] at hmhead
            simpa using hmhead
          subst hm0
          have hmmem : Node.find_min r ∈ r.in_order_traversal := by
            rw [htail]; exact List.mem_cons_self _ _
          obtain ⟨res, hdel, hio, hb⟩ :=
            Node.delete_ok_spec r (Node.find_min r) hbr hmmem
          have hiotail : inOrderOpt res = tail := by
            rw [hio, htail, List.erase_cons_head]
          have hsorted := (Node.isBST_iff_sorted r).mp hbr
          rw [htail] at hsorted
          have htailgt := (List.sorted_cons.mp hsorted).1
          have hvm : v < Node.find_min r := hallR (Node.find_min r) (by simpa using hmmem)
          refine ⟨some (.mk (Node.find_min r) (some l) res), ?_, ?_, ?_⟩
          · rw [Node.delete_self_two v l r, hdel]
            rfl
          · rw [inOrderOpt_some, Node.in_order_eq, Node.in_order_eq,
              List.erase_append_right _ hvnotL, List.erase_cons_head,
              hiotail]
            simp [htail]
          · refine Node.isBST_build ?_ ?_ (by simpa using hbL) hb
            · intro x hx
              exact lt_trans (hallL x hx) hvm
            · intro y hy
              rw [hiotail] at hy
              exact htailgt y hy
    · have hvR : v ∈ inOrderOpt right := by
        rcases hmem with h | rfl | h
        · exact absurd (hallL v h) (by omega)
        · omega
        · exact h
      cases right with
      | none => exact absurd hvR (by simp)
      | some r =>
        obtain ⟨res, hdel, hio, hb⟩ :=
          Node.delete_ok_spec r v (by simpa using hbR) (by simpa using hvR)
        refine ⟨some (.mk value left res), ?_, ?_, ?_⟩
        · rw [Node.delete_gt_some left r hv, hdel]
          rfl
        · rw [inOrderOpt_some, Node.in_order_eq, Node.in_order_eq,
            List.erase_append_right _ (fun h => absurd (hallL v h) (by omega)),
            List.erase_cons_tail (by simp only [beq_iff_eq]; omega), hio]
          rfl
        · refine Node.isBST_build hallL ?_ hbL ?_
          · intro x hx
            rw [hio] at hx
            exact hallR x (List.erase_subset v _ hx)
          · simpa using hb

/-! ## Tree-level lemmas and the operation-sequence invariant -/

/-- Two strictly ascending lists with the same members are equal. -/
theorem eq_of_sorted_of_mem_iff {l1 l2 : List Int}
    (h1 : List.Sorted (· < ·) l1) (h2 : List.Sorted (· < ·) l2)
    (hm : ∀ x, x ∈ l1 ↔ x ∈ l2) : l1 = l2 :=
  List.eq_of_perm_of_sorted
    ((List.perm_ext_iff_of_nodup h1.nodup h2.nodup).mpr hm)
    h1.le_of_lt h2.le_of_lt

/-- Tree-level sortedness characterisation of the invariant. -/
theorem BinarySearchTree.isBST_iff_inorder_sorted (t : BinarySearchTree) :
    t.isBST = true ↔ List.Sorted (· < ·) t.in_order_traversal := by
  obtain ⟨root⟩ := t
  cases root with
  | none => simp [BinarySearchTree.isBST, BinarySearchTree.in_order_traversal, isBSTOpt]
  | some n =>
    rw [show BinarySearchTree.isBST { root := some n } = n.isBST from rfl,
      show BinarySearchTree.in_order_traversal { root := some n } =
        n.in_order_traversal from rfl]
    exact Node.isBST_iff_sorted n

/-- Tree-level search is membership, under the invariant. -/
theorem BinarySearchTree.search_iff_mem_inorder (t : BinarySearchTree) (v : Int)
    (hb : t.isBST = true) :
    (t.search v = true ↔ v ∈ t.in_order_traversal) := by
  obtain ⟨root⟩ := t
  cases root with
  | none => simp [BinarySearchTree.search, BinarySearchTree.in_order_traversal]
  | some n =>
    exact Node.search_iff_mem n v (by simpa [BinarySearchTree.isBST, isBSTOpt] using hb)

/-- One applied operation preserves the invariant and tracks the
abstract set model. -/
theorem BinarySearchTree.applyOp_invariant (t : BinarySearchTree) (s : Finset Int)
    (op : Op) (hb : t.isBST = true)
    (hs : ∀ x, x ∈ t.in_order_traversal ↔ x ∈ s) :
    (t.applyOp op).isBST = true ∧
      ∀ x, x ∈ (t.applyOp op).in_order_traversal ↔ x ∈ Op.model s op := by
  obtain ⟨root⟩ := t
  cases op with
  | ins v =>
    cases root with
    | none =>
      constructor
      · rfl
      · intro x
        have hx := hs x
        simp only [BinarySearchTree.in_order_traversal] at hx
        simp only [BinarySearchTree.applyOp, BinarySearchTree.insert,
          BinarySearchTree.in_order_traversal, Op.model, Finset.mem_insert]
        simp only [List.not_mem_nil, false_iff] at hx
        simp [Node.new, Node.in_order_eq]
        tauto
    | some n =>
      cases hi : Node.insert n v with
      | ok n2 =>
        have hbn : n.isBST = true := by
          simpa [BinarySearchTree.isBST, isBSTOpt] using hb
        obtain ⟨hb2, hmem2⟩ := Node.insert_ok_spec n v n2 hbn hi
        have happ : BinarySearchTree.applyOp { root := some n } (.ins v) =
            { root := some n2 } := by
          simp [BinarySearchTree.applyOp, BinarySearchTree.insert, hi, Except.map]
        rw [happ]
        constructor
        · simpa [BinarySearchTree.isBST, isBSTOpt] using hb2
        · intro x
          have hx := hs x
          simp only [BinarySearchTree.in_order_traversal] at hx ⊢
          rw [hmem2 x, Op.model, Finset.mem_insert, hx]
      | error e =>
        have happ : BinarySearchTree.applyOp { root := some n } (.ins v) =
            { root := some n } := by
          simp [BinarySearchTree.applyOp, BinarySearchTree.insert, hi, Except.map]
        rw [happ]
        refine ⟨hb, fun x => ?_⟩
        have hdup : Node.insert n v = .error .DuplicateValue := by
          rcases Node.insert_ok_or_error n v with ⟨n2, h⟩ | h
          · rw [h] at hi; cases hi
          · exact h
        have hbn : n.isBST = true := by
          simpa [BinarySearchTree.isBST, isBSTOpt] using hb
        have hvmem : v ∈ n.in_order_traversal :=
          (Node.search_iff_mem n v hbn).mp ((Node.insert_error_iff n v).mp hdup)
        have hvs : v ∈ s := by
          rw [← hs v]
          simpa [BinarySearchTree.in_order_traversal] using hvmem
        rw [hs x, Op.model, Finset.mem_insert]
        constructor
        · exact fun h => Or.inr h
        · rintro (rfl | h)
          · exact hvs
          · exact h
  | del v =>
    cases root with
    | none =>
      constructor
      · exact hb
      · intro x
        have hx := hs x
        simp only [BinarySearchTree.in_order_traversal, List.not_mem_nil,
          false_iff] at hx
        simp only [BinarySearchTree.applyOp, BinarySearchTree.delete,
          BinarySearchTree.in_order_traversal, Op.model, Finset.mem_erase]
        simp only [List.not_mem_nil, false_iff]
        intro hcon
        exact hx hcon.2
    | some n =>
      have hbn : n.isBST = true := by
        simpa [BinarySearchTree.isBST, isBSTOpt] using hb
      by_cases hm : v ∈ n.in_order_traversal
      · obtain ⟨res, hdel, hio, hbres⟩ := Node.delete_ok_spec n v hbn hm
        have happ : BinarySearchTree.applyOp { root := some n } (.del v) =
            { root := res } := by
          simp [BinarySearchTree.applyOp, BinarySearchTree.delete, hdel, Except.map]
        rw [happ]
        have hnodup : n.in_order_traversal.Nodup :=
          ((Node.isBST_iff_sorted n).mp hbn).nodup
        constructor
        · exact hbres
        · intro x
          have hin : BinarySearchTree.in_order_traversal { root := res } =
              inOrderOpt res := by
            cases res <;> rfl
          rw [hin, hio, hnodup.mem_erase_iff, Op.model, Finset.mem_erase, ← hs x]
          simp [BinarySearchTree.in_order_traversal]
      · have herr := Node.delete_not_mem n v hm
        have happ : BinarySearchTree.applyOp { root := some n } (.del v) =
            { root := some n } := by
          simp [BinarySearchTree.applyOp, BinarySearchTree.delete, herr, Except.map]
        rw [happ]
        refine ⟨hb, fun x => ?_⟩
        have hvs : v ∉ s := by
          rw [← hs v]
          simpa [BinarySearchTree.in_order_traversal] using hm
        rw [hs x, Op.model, Finset.mem_erase]
        constructor
        · intro h
          exact ⟨fun hxv => hvs (hxv ▸ h), h⟩
        · exact fun h => h.2

/-- The invariant and the set model hold after any operation sequence. -/
theorem applyOps_invariant : ∀ (ops : List Op) (t : BinarySearchTree) (s : Finset Int),
    t.isBST = true → (∀ x, x ∈ t.in_order_traversal ↔ x ∈ s) →
    (List.foldl BinarySearchTree.applyOp t ops).isBST = true ∧
      ∀ x, x ∈ (List.foldl BinarySearchTree.applyOp t ops).in_order_traversal ↔
        x ∈ List.foldl Op.model s ops
  | [], t, s, hb, hs => ⟨hb, hs⟩
  | op :: ops, t, s, hb, hs => by
    obtain ⟨hb2, hs2⟩ := BinarySearchTree.applyOp_invariant t s op hb hs
    simpa using applyOps_invariant ops (t.applyOp op) (Op.model s op) hb2 hs2

/-- Specialisation to the empty starting tree. -/
theorem applyOps_spec (ops : List Op) :
    (applyOps ops).isBST = true ∧
      ∀ x, x ∈ (applyOps ops).in_order_traversal ↔ x ∈ modelOps ops := by
  refine applyOps_invariant ops .new ∅ rfl fun x => ?_
  simp [BinarySearchTree.new, BinarySearchTree.in_order_traversal]

/-- The minimum returned by `find_min` is stored in the subtree. -/
theorem Node.find_min_mem (n : Node) : n.find_min ∈ n.in_order_traversal := by
  have h := Node.find_min_eq_head n
  cases hl : n.in_order_traversal with
  | nil => exact absurd hl (Node.in_order_ne_nil n)
  | cons a as =>
    rw [hl] at h
    simp only [List.head?_cons, Option.some.injEq] at h
    rw [← h]
    exact List.mem_cons_self a as

/-- Tree-level count equals the length of the in-order traversal. -/
theorem BinarySearchTree.count_nodes_eq_inorder_length (t : BinarySearchTree) :
    t.count_nodes = t.in_order_traversal.length := by
  obtain ⟨root⟩ := t
  cases root with
  | none => rfl
  | some n =>
    exact Node.count_nodes_eq_length n

/-! ## Claim theorems -/

/-- C1: for every sequence of insert and delete operations applied to the
empty tree (failed operations leave the tree unchanged, and a failed
insert or delete also leaves the abstract set unchanged), the resulting
tree satisfies the BST ordering invariant, its in-order traversal is
strictly ascending, and that traversal equals the sorted sequence of the
set of values successfully inserted minus those successfully deleted. -/
theorem C1_reachable_invariant (ops : List Op) :
    (applyOps ops).isBST = true ∧
    List.Sorted (· < ·) (applyOps ops).in_order_traversal ∧
    (applyOps ops).in_order_traversal = (modelOps ops).sort (· ≤ ·) := by
  obtain ⟨hb, hmem⟩ := applyOps_spec ops
  have hsorted := (BinarySearchTree.isBST_iff_inorder_sorted _).mp hb
  refine ⟨hb, hsorted, eq_of_sorted_of_mem_iff hsorted (Finset.sort_sorted_lt _) ?_⟩
  intro x
  rw [hmem x, Finset.mem_sort]

/-- C2: deleting a value that is present in a tree satisfying the
invariant succeeds, and the resulting in-order traversal is still
strictly ascending and equals the previous traversal with exactly that
one value removed. -/
theorem C2_delete_present (t : BinarySearchTree) (v : Int)
    (hb : t.isBST = true) (hv : v ∈ t.in_order_traversal) :
    ∃ t2, t.delete v = .ok t2 ∧
      List.Sorted (· < ·) t2.in_order_traversal ∧
      t2.in_order_traversal = t.in_order_traversal.erase v := by
  obtain ⟨root⟩ := t
  cases root with
  | none => exact absurd hv (by simp [BinarySearchTree.in_order_traversal])
  | some n =>
    have hbn : n.isBST = true := by
      simpa [BinarySearchTree.isBST, isBSTOpt] using hb
    obtain ⟨res, hdel, hio, hbres⟩ := Node.delete_ok_spec n v hbn
      (by simpa [BinarySearchTree.in_order_traversal] using hv)
    have hin : BinarySearchTree.in_order_traversal { root := res } =
        inOrderOpt res := by
      cases res <;> rfl
    refine ⟨{ root := res }, ?_, ?_, ?_⟩
    · simp [BinarySearchTree.delete, hdel, Except.map]
    · rw [← BinarySearchTree.isBST_iff_inorder_sorted]
      exact hbres
    · rw [hin, hio]
      rfl

/-- C2 witness: deleting 15 from the driver scenario tree. -/
theorem C2_delete_present_witness :
    ∃ t2, scenario_tree.delete 15 = .ok t2 ∧
      List.Sorted (· < ·) t2.in_order_traversal ∧
      t2.in_order_traversal = scenario_tree.in_order_traversal.erase 15 :=
  C2_delete_present scenario_tree 15 rfl (by decide)

/-- C3: inserting a value already present in a tree satisfying the
invariant fails with `DuplicateValue`, and the tree is unchanged:
the applied operation returns the very same tree, so `count_nodes`,
`in_order_traversal`, and every `search` result are unchanged. -/
theorem C3_insert_duplicate (t : BinarySearchTree) (v : Int)
    (hb : t.isBST = true) (hv : v ∈ t.in_order_traversal) :
    t.insert v = .error .DuplicateValue ∧
    t.applyOp (.ins v) = t ∧
    (t.applyOp (.ins v)).count_nodes = t.count_nodes ∧
    (t.applyOp (.ins v)).in_order_traversal = t.in_order_traversal ∧
    ∀ w, (t.applyOp (.ins v)).search w = t.search w := by
  have herr : t.insert v = .error .DuplicateValue := by
    obtain ⟨root⟩ := t
    cases root with
    | none => exact absurd hv (by simp [BinarySearchTree.in_order_traversal])
    | some n =>
      have hbn : n.isBST = true := by
        simpa [BinarySearchTree.isBST, isBSTOpt] using hb
      have hmem : v ∈ n.in_order_traversal := by
        simpa [BinarySearchTree.in_order_traversal] using hv
      have hdup := (Node.insert_error_iff n v).mpr
        ((Node.search_iff_mem n v hbn).mpr hmem)
      simp [BinarySearchTree.insert, hdup, Except.map]
  have happ : t.applyOp (.ins v) = t := by
    simp [BinarySearchTree.applyOp, herr]
  exact ⟨herr, happ, by rw [happ], by rw [happ], fun w => by rw [happ]⟩

/-- C3 witness: re-inserting 10 into the driver scenario tree. -/
theorem C3_insert_duplicate_witness :
    scenario_tree.insert 10 = .error .DuplicateValue ∧
    scenario_tree.applyOp (.ins 10) = scenario_tree ∧
    (scenario_tree.applyOp (.ins 10)).count_nodes = scenario_tree.count_nodes ∧
    (scenario_tree.applyOp (.ins 10)).in_order_traversal =
      scenario_tree.in_order_traversal ∧
    ∀ w, (scenario_tree.applyOp (.ins 10)).search w = scenario_tree.search w :=
  C3_insert_duplicate scenario_tree 10 rfl (by decide)

/-- C4: deleting a value not present in a tree (any tree, including the
empty one) fails with `ValueNotFound` and the tree is unchanged, so its
in-order traversal is unchanged. -/
theorem C4_delete_missing (t : BinarySearchTree) (v : Int)
    (hv : v ∉ t.in_order_traversal) :
    t.delete v = .error .ValueNotFound ∧
    t.applyOp (.del v) = t ∧
    (t.applyOp (.del v)).in_order_traversal = t.in_order_traversal := by
  have herr : t.delete v = .error .ValueNotFound := by
    obtain ⟨root⟩ := t
    cases root with
    | none => rfl
    | some n =>
      have hm : v ∉ n.in_order_traversal := by
        simpa [BinarySearchTree.in_order_traversal] using hv
      simp [BinarySearchTree.delete, Node.delete_not_mem n v hm, Except.map]
  have happ : t.applyOp (.del v) = t := by
    simp [BinarySearchTree.applyOp, herr]
  exact ⟨herr, happ, by rw [happ]⟩

/-- C4 witness: deleting 20 from the driver scenario tree, and deleting
from the empty tree. -/
theorem C4_delete_missing_witness :
    (scenario_tree.delete 20 = .error .ValueNotFound ∧
      scenario_tree.applyOp (.del 20) = scenario_tree ∧
      (scenario_tree.applyOp (.del 20)).in_order_traversal =
        scenario_tree.in_order_traversal) ∧
    BinarySearchTree.new.delete 20 = .error .ValueNotFound :=
  ⟨C4_delete_missing scenario_tree 20 (by decide),
    (C4_delete_missing BinarySearchTree.new 20 (by decide)).1⟩

/-- C5: after any operation sequence applied to the empty tree, search
finds exactly the values successfully inserted and not subsequently
deleted (search is a pure function of the tree and mutates nothing). -/
theorem C5_search_correctness (ops : List Op) (v : Int) :
    (applyOps ops).search v = true ↔ v ∈ modelOps ops := by
  obtain ⟨hb, hmem⟩ := applyOps_spec ops
  rw [BinarySearchTree.search_iff_mem_inorder _ v hb, hmem v]

/-- In a strictly ascending list the last element is an upper bound. -/
theorem sorted_le_getLast : ∀ (l : List Int), List.Sorted (· < ·) l →
    ∀ m, l.getLast? = some m → ∀ x ∈ l, x ≤ m
  | [], _, m, hm => by cases hm
  | a :: as, h, m, hm => by
    intro x hx
    cases as with
    | nil =>
      simp only [List.getLast?_singleton, Option.some.injEq] at hm
      simp only [List.mem_singleton] at hx
      omega
    | cons b bs =>
      rw [List.getLast?_cons_cons] at hm
      have hyp := (List.sorted_cons.mp h).1
      have htl := (List.sorted_cons.mp h).2
      have hm_mem : m ∈ b :: bs := List.mem_of_getLast?_eq_some hm
      rcases List.mem_cons.mp hx with rfl | hx2
      · exact le_of_lt (hyp m hm_mem)
      · exact sorted_le_getLast (b :: bs) htl m hm x hx2

/-- C6: the balance check is shallow.  It is true on the empty tree; on a
non-empty tree it compares only the heights of the root's immediate
subtrees (true iff they differ by at most 1), without recursing; hence a
tree whose root's subtrees have equal heights reports balanced even when
a subtree is internally skewed by more than 1, as `skewed_tree` shows
(its left subtree fails the same local check). -/
theorem C6_is_balanced_shallow :
    BinarySearchTree.new.is_balanced = true ∧
    (∀ n : Node, (BinarySearchTree.mk (some n)).is_balanced = n.is_balanced) ∧
    (∀ (value : Int) (left right : Option Node),
      (Node.mk value left right).is_balanced = true ↔
        ((heightOpt left : Int) - (heightOpt right : Int)).natAbs ≤ 1) ∧
    skewed_tree.is_balanced = true ∧
    skewed_left.height = skewed_right.height ∧
    skewed_left.is_balanced = false := by
  refine ⟨rfl, fun n => rfl, ?_, rfl, rfl, rfl⟩
  intro value left right
  cases left <;> cases right <;> simp [Node.is_balanced, heightOpt]

/-- C7: at a matching node with two children, delete replaces the node's
value by the minimum of the right subtree and recursively deletes that
minimum from the right subtree; under the invariant that inner recursive
delete always succeeds (its `ValueNotFound` branch is unreachable). -/
theorem C7_two_child_delete (v : Int) (l r : Node)
    (hb : Node.isBST (.mk v (some l) (some r)) = true) :
    ∃ res : Option Node,
      Node.delete r (Node.find_min r) = .ok res ∧
      Node.delete (.mk v (some l) (some r)) v =
        .ok (some (.mk (Node.find_min r) (some l) res)) := by
  obtain ⟨hallL, hallR, hbL, hbR⟩ := Node.isBST_parts hb
  have hbr : r.isBST = true := by simpa using hbR
  obtain ⟨res, hdel, hio, hbres⟩ :=
    Node.delete_ok_spec r (Node.find_min r) hbr (Node.find_min_mem r)
  refine ⟨res, hdel, ?_⟩
  rw [Node.delete_self_two v l r, hdel]
  rfl

/-- C7 witness: the two-child node holding 15 in the driver scenario. -/
theorem C7_two_child_delete_witness :
    ∃ res : Option Node,
      Node.delete (.mk 18 none none) (Node.find_min (.mk 18 none none)) = .ok res ∧
      Node.delete (.mk 15 (some (.mk 12 none none)) (some (.mk 18 none none))) 15 =
        .ok (some (.mk (Node.find_min (.mk 18 none none))
          (some (.mk 12 none none)) res)) :=
  C7_two_child_delete 15 (.mk 12 none none) (.mk 18 none none) (by decide)

/-- C8: `find_min`/`find_max` are `none` exactly on the empty tree; they
are the head and the last element of the in-order traversal (the values
reached by following left, respectively right, children until absent),
and under the invariant they are the least and greatest stored values. -/
theorem C8_find_min_max (t : BinarySearchTree) (hb : t.isBST = true) :
    (t.find_min = none ↔ t.root = none) ∧
    (t.find_max = none ↔ t.root = none) ∧
    t.find_min = t.in_order_traversal.head? ∧
    t.find_max = t.in_order_traversal.getLast? ∧
    (∀ m, t.find_min = some m → m ∈ t.in_order_traversal ∧
      ∀ x ∈ t.in_order_traversal, m ≤ x) ∧
    (∀ m, t.find_max = some m → m ∈ t.in_order_traversal ∧
      ∀ x ∈ t.in_order_traversal, x ≤ m) := by
  obtain ⟨root⟩ := t
  cases root with
  | none =>
    refine ⟨by simp [BinarySearchTree.find_min], by simp [BinarySearchTree.find_max],
      rfl, rfl, ?_, ?_⟩ <;>
      · intro m hm
        exact absurd hm (by simp [BinarySearchTree.find_min, BinarySearchTree.find_max])
  | some n =>
    have hbn : n.isBST = true := by
      simpa [BinarySearchTree.isBST, isBSTOpt] using hb
    have hsorted := (Node.isBST_iff_sorted n).mp hbn
    have hmin : BinarySearchTree.find_min { root := some n } = some n.find_min := rfl
    have hmax : BinarySearchTree.find_max { root := some n } = some n.find_max := rfl
    have hin : BinarySearchTree.in_order_traversal { root := some n } =
        n.in_order_traversal := rfl
    refine ⟨by simp [hmin], by simp [hmax],
      by rw [hmin, hin, Node.find_min_eq_head],
      by rw [hmax, hin, Node.find_max_eq_getLast], ?_, ?_⟩
    · intro m hm
      rw [hmin] at hm
      injection hm with hm
      subst hm
      rw [hin]
      refine ⟨Node.find_min_mem n, ?_⟩
      intro x hx
      obtain ⟨a, as, hl⟩ := List.exists_cons_of_ne_nil (Node.in_order_ne_nil n)
      have hhead := Node.find_min_eq_head n
      rw [hl] at hhead
      simp only [List.head?_cons, Option.some.injEq] at hhead
      rw [hl] at hx hsorted
      have hrel := (List.sorted_cons.mp hsorted).1
      rcases List.mem_cons.mp hx with rfl | hx2
      · omega
      · rw [← hhead]
        exact le_of_lt (hrel x hx2)
    · intro m hm
      rw [hmax] at hm
      injection hm with hm
      subst hm
      rw [hin]
      have hlast := Node.find_max_eq_getLast n
      refine ⟨List.mem_of_getLast?_eq_some hlast, ?_⟩
      exact sorted_le_getLast n.in_order_traversal hsorted n.find_max hlast

/-- C8 witness: the driver scenario tree. -/
theorem C8_find_min_max_witness :
    (scenario_tree.find_min = none ↔ scenario_tree.root = none) ∧
    (scenario_tree.find_max = none ↔ scenario_tree.root = none) ∧
    scenario_tree.find_min = scenario_tree.in_order_traversal.head? ∧
    scenario_tree.find_max = scenario_tree.in_order_traversal.getLast? ∧
    (∀ m, scenario_tree.find_min = some m → m ∈ scenario_tree.in_order_traversal ∧
      ∀ x ∈ scenario_tree.in_order_traversal, m ≤ x) ∧
    (∀ m, scenario_tree.find_max = some m → m ∈ scenario_tree.in_order_traversal ∧
      ∀ x ∈ scenario_tree.in_order_traversal, x ≤ m) :=
  C8_find_min_max scenario_tree rfl

/-- C9: the driver scenario.  Inserting 10, 5, 15, 3, 7, 12, 18 in order
into the empty tree succeeds at every step and yields `scenario_tree`,
whose observations are as stated; deleting 15 then succeeds and yields
the stated traversal and height. -/
theorem C9_driver_scenario :
    scenario_chain = .ok scenario_tree ∧
    scenario_tree.in_order_traversal = [3, 5, 7, 10, 12, 15, 18] ∧
    scenario_tree.pre_order_traversal = [10, 5, 3, 7, 15, 12, 18] ∧
    scenario_tree.post_order_traversal = [3, 7, 5, 12, 18, 15, 10] ∧
    scenario_tree.count_nodes = 7 ∧
    scenario_tree.find_min = some 3 ∧
    scenario_tree.find_max = some 18 ∧
    scenario_tree.height = 3 ∧
    scenario_tree.is_balanced = true ∧
    scenario_tree.delete 15 = .ok scenario_tree_after ∧
    scenario_tree_after.in_order_traversal = [3, 5, 7, 10, 12, 18] ∧
    scenario_tree_after.height = 3 :=
  ⟨rfl, rfl, rfl, rfl, rfl, rfl, rfl, rfl, rfl, rfl, rfl, rfl⟩

/-- C10: round trip.  Inserting a value absent from a tree satisfying the
invariant succeeds, the subsequent delete of that value succeeds, and the
resulting tree has the same in-order traversal (hence the same
`count_nodes`) as the original. -/
theorem C10_insert_delete_roundtrip (t : BinarySearchTree) (v : Int)
    (hb : t.isBST = true) (hv : v ∉ t.in_order_traversal) :
    ∃ t1, t.insert v = .ok t1 ∧
      ∃ t2, t1.delete v = .ok t2 ∧
        t2.in_order_traversal = t.in_order_traversal ∧
        t2.count_nodes = t.count_nodes := by
  obtain ⟨root⟩ := t
  cases root with
  | none =>
    refine ⟨{ root := some (Node.new v) }, rfl, { root := none }, ?_, rfl, rfl⟩
    show BinarySearchTree.delete _ v = _
    simp [BinarySearchTree.delete, Node.new, Node.delete_self_noleft, Except.map]
  | some n =>
    have hbn : n.isBST = true := by
      simpa [BinarySearchTree.isBST, isBSTOpt] using hb
    have hnm : v ∉ n.in_order_traversal := by
      simpa [BinarySearchTree.in_order_traversal] using hv
    obtain ⟨n2, hins⟩ : ∃ n2, Node.insert n v = .ok n2 := by
      rcases Node.insert_ok_or_error n v with h | h
      · exact h
      · exact absurd ((Node.search_iff_mem n v hbn).mp
          ((Node.insert_error_iff n v).mp h)) hnm
    obtain ⟨hb2, hmem2⟩ := Node.insert_ok_spec n v n2 hbn hins
    have hv2 : v ∈ n2.in_order_traversal := (hmem2 v).mpr (Or.inl rfl)
    obtain ⟨res, hdel, hio, hbres⟩ := Node.delete_ok_spec n2 v hb2 hv2
    have hsorted2 := (Node.isBST_iff_sorted n2).mp hb2
    have hsorted := (Node.isBST_iff_sorted n).mp hbn
    have hin : BinarySearchTree.in_order_traversal { root := res } =
        inOrderOpt res := by
      cases res <;> rfl
    have hioeq : inOrderOpt res = n.in_order_traversal := by
      rw [hio]
      refine eq_of_sorted_of_mem_iff
        (List.Pairwise.sublist (List.erase_sublist v n2.in_order_traversal) hsorted2)
        hsorted fun x => ?_
      rw [hsorted2.nodup.mem_erase_iff]
      constructor
      · rintro ⟨hne, hx⟩
        rcases (hmem2 x).mp hx with rfl | hx2
        · exact absurd rfl hne
        · exact hx2
      · intro hx
        refine ⟨fun hxv => hnm (hxv ▸ hx), (hmem2 x).mpr (Or.inr hx)⟩
    refine ⟨{ root := some n2 }, ?_, { root := res }, ?_, ?_, ?_⟩
    · simp [BinarySearchTree.insert, hins, Except.map]
    · simp [BinarySearchTree.delete, hdel, Except.map]
    · rw [hin, hioeq]
      rfl
    · rw [BinarySearchTree.count_nodes_eq_inorder_length, BinarySearchTree.count_nodes_eq_inorder_length,
        hin, hioeq]
      rfl

/-- C10 witness: inserting 6 into the driver scenario tree and deleting
it again. -/
theorem C10_insert_delete_roundtrip_witness :
    ∃ t1, scenario_tree.insert 6 = .ok t1 ∧
      ∃ t2, t1.delete 6 = .ok t2 ∧
        t2.in_order_traversal = scenario_tree.in_order_traversal ∧
        t2.count_nodes = scenario_tree.count_nodes :=
  C10_insert_delete_roundtrip scenario_tree 6 rfl (by decide)
